import Mathlib

/-!
Shallow embedding of the tsoding/seroost search engine (src/main.rs, src/model.rs)
and proofs about its specification claims.

Modelling conventions:
- Rust `HashMap` becomes an association list (`List (key × value)`) whose `insert`
  replaces the binding in place; iteration order is the list order (Rust's hash
  iteration order is arbitrary, and no property below depends on a particular
  order beyond what the spec itself allows).
- `PathBuf` becomes `String` (path keys are only compared for equality and
  serialized as display strings).
- `f32` becomes the type `F` below: exact rationals extended with the IEEE
  special values `nan`, `+inf`, `-inf`.  Rounding and overflow are not modelled:
  every number the program manipulates is a small integer cast, a quotient of
  such casts, or a log10 of such a quotient, and no claim depends on rounding.
  `log10` of a finite positive rational is in general irrational, so the model
  is parameterised by a function `lg : ℚ → ℚ` standing for the (rounded) value
  of `log10` on positive finite arguments; all theorems hold for every `lg`.
- A Rust panic (`todo!()`, `Option::unwrap` on `None` inside `sort_by`) is
  modelled by an `Option`-returning function producing `none`.
- `char` classification (`is_whitespace`, `is_numeric`, `is_alphabetic`) defers
  to the Unicode tables of the Rust standard library (external to this
  repository).  `is_whitespace` is modelled exactly (the White_Space class is
  small); the numeric class is modelled on its ASCII-digit fragment and the
  alphabetic class on ASCII letters plus an explicit finite fragment of
  non-ASCII letters, which is all the development exercises.
-/

/-! ## Association-list model of `HashMap` -/

/-- Model of `HashMap::get` on an association list. -/
def getA {α β : Type} [DecidableEq α] : List (α × β) → α → Option β
  | [], _ => none
  | (k, v) :: rest, a => if a = k then some v else getA rest a

/-- Model of `map.get(k).cloned().unwrap_or(d)`. -/
def getD {α β : Type} [DecidableEq α] (l : List (α × β)) (a : α) (d : β) : β :=
  (getA l a).getD d

/-- Model of `HashMap::insert`: replace the binding in place if the key is
present, otherwise append a fresh binding. -/
def insertA {α β : Type} [DecidableEq α] : List (α × β) → α → β → List (α × β)
  | [], a, b => [(a, b)]
  | (k, v) :: rest, a, b => if a = k then (a, b) :: rest else (k, v) :: insertA rest a b

/-- The `if let Some(freq) = m.get_mut(&k) { *freq += 1 } else { m.insert(k, 1) }`
pattern used throughout the source. -/
def bumpA {α : Type} [DecidableEq α] (l : List (α × Nat)) (a : α) : List (α × Nat) :=
  match getA l a with
  | some v => insertA l a (v + 1)
  | none => insertA l a 1

/-- The key list (model of `HashMap::keys`). -/
def keysA {α β : Type} (l : List (α × β)) : List α := l.map Prod.fst

/-! ## Character classification (models of Rust `char` methods) -/

/-- Exact model of `char::is_whitespace` (the Unicode White_Space class). -/
def isWhitespaceM (c : Char) : Bool :=
  ['\t', '\n', '\x0b', '\x0c', '\r', ' ', '\u0085', ' ', ' ',
   ' ', ' ', ' ', ' ', ' ', ' ', ' ',
   ' ', ' ', ' ', ' ', ' ', ' ', ' ',
   ' ', '　'].contains c

/-- Model of `char::is_numeric` on its ASCII-digit fragment (the Unicode
numeric classes Nd/Nl/No restricted to the characters this development
exercises). -/
def isNumericM (c : Char) : Bool := 48 ≤ c.toNat && c.toNat ≤ 57

/-- An explicit finite fragment of the non-ASCII part of the Unicode
Alphabetic class, enough to exercise the tokenizer's non-ASCII behaviour.
Each listed character is Alphabetic in Unicode. -/
def nonAsciiAlphaFrag : List Char := ['é', 'É', 'ß', 'λ', 'Λ']

/-- Model of `char::is_alphabetic`: ASCII letters plus the non-ASCII
fragment above. -/
def isAlphabeticM (c : Char) : Bool :=
  (65 ≤ c.toNat && c.toNat ≤ 90) || (97 ≤ c.toNat && c.toNat ≤ 122) ||
    nonAsciiAlphaFrag.contains c

/-- Model of `char::is_alphanumeric` (`is_alphabetic || is_numeric`). -/
def isAlphanumericM (c : Char) : Bool := isAlphabeticM c || isNumericM c

/-- Model of `char::is_uppercase` restricted to the characters this
development exercises: ASCII capitals plus the uppercase members of
`nonAsciiAlphaFrag`.  In particular `é` is lowercase in Unicode. -/
def isUppercaseM (c : Char) : Bool :=
  (65 ≤ c.toNat && c.toNat ≤ 90) || ['É', 'Λ'].contains c

/-- ASCII lowercase letter test (used to state the case-folding property). -/
def isAsciiLower (c : Char) : Bool := 97 ≤ c.toNat && c.toNat ≤ 122

/-- Exact model of `char::to_ascii_uppercase`: fold `a..z` to `A..Z`, leave
every other character (including every non-ASCII letter) unchanged. -/
def to_ascii_uppercase (c : Char) : Char :=
  if 97 ≤ c.toNat && c.toNat ≤ 122 then Char.ofNat (c.toNat - 32) else c

/-! ## The tokenizer (`Lexer`, identical in src/main.rs:13-66 and
src/model.rs:223-276) -/

/-- `Lexer::trim_left`: drop the maximal whitespace prefix. -/
def trim_left (content : List Char) : List Char := content.dropWhile isWhitespaceM

/-- `Lexer::next_token` (model.rs:252-267): returns the next token together
with the remaining content, or `none` at end of input. -/
def next_token (content : List Char) : Option (String × List Char) :=
  match trim_left content with
  | [] => none
  | c :: rest =>
    if isNumericM c then
      some (String.mk ((c :: rest).takeWhile isNumericM),
            (c :: rest).dropWhile isNumericM)
    else if isAlphabeticM c then
      some (String.mk (((c :: rest).takeWhile isAlphanumericM).map to_ascii_uppercase),
            (c :: rest).dropWhile isAlphanumericM)
    else
      some (String.mk [c], rest)

/-- Fuel-indexed token stream; `content.length` fuel always suffices because
`next_token` consumes at least one character. -/
def tokensFuel : Nat → List Char → List String
  | 0, _ => []
  | fuel + 1, content =>
    match next_token content with
    | none => []
    | some (t, rest) => t :: tokensFuel fuel rest

/-- The full token stream of the `Lexer` iterator over `content`. -/
def tokens (content : List Char) : List String := tokensFuel content.length content

/-! ## The `f32` model -/

/-- Model of `f32`: exact rationals plus the IEEE special values. -/
inductive F : Type where
  | nan : F
  | inf : F
  | ninf : F
  | fin : ℚ → F
deriving DecidableEq, Repr

/-- `usize as f32` (exact; conversion rounding is not modelled). -/
def F.ofNat (n : Nat) : F := F.fin n

/-- IEEE addition on the model (exact, no rounding). -/
def F.add : F → F → F
  | nan, _ => nan
  | inf, y =>
    match y with
    | nan => nan
    | ninf => nan
    | _ => inf
  | ninf, y =>
    match y with
    | nan => nan
    | inf => nan
    | _ => ninf
  | fin a, y =>
    match y with
    | nan => nan
    | inf => inf
    | ninf => ninf
    | fin b => fin (a + b)

/-- IEEE multiplication on the model (exact, no rounding). -/
def F.mul : F → F → F
  | nan, _ => nan
  | inf, y =>
    match y with
    | nan => nan
    | inf => inf
    | ninf => ninf
    | fin b => if b = 0 then nan else if 0 < b then inf else ninf
  | ninf, y =>
    match y with
    | nan => nan
    | inf => ninf
    | ninf => inf
    | fin b => if b = 0 then nan else if 0 < b then ninf else inf
  | fin a, y =>
    match y with
    | nan => nan
    | inf => if a = 0 then nan else if 0 < a then inf else ninf
    | ninf => if a = 0 then nan else if 0 < a then ninf else inf
    | fin b => fin (a * b)

/-- IEEE division on the model (exact, no rounding; signed zero is not
modelled, so `x / 0` takes the sign of `x` as with `+0.0`). -/
def F.div : F → F → F
  | nan, _ => nan
  | inf, y =>
    match y with
    | nan => nan
    | inf => nan
    | ninf => nan
    | fin b => if 0 ≤ b then inf else ninf
  | ninf, y =>
    match y with
    | nan => nan
    | inf => nan
    | ninf => nan
    | fin b => if 0 ≤ b then ninf else inf
  | fin a, y =>
    match y with
    | nan => nan
    | inf => fin 0
    | ninf => fin 0
    | fin b =>
      if b = 0 then (if a = 0 then nan else if 0 < a then inf else ninf)
      else fin (a / b)

/-- Model of `f32::log10`, parameterised by `lg`, the value of log10 on
positive finite arguments.  `log10 0 = -inf`, `log10` of a negative value is
`NaN`, `log10 (+inf) = +inf`, as in IEEE. -/
def F.log10 (lg : ℚ → ℚ) : F → F
  | nan => nan
  | inf => inf
  | ninf => nan
  | fin q => if q < 0 then nan else if q = 0 then ninf else fin (lg q)

/-- Model of `f32`'s `PartialOrd::partial_cmp`: `none` iff either side is
`NaN`, otherwise the total comparison. -/
def F.pcmp : F → F → Option Ordering
  | nan, _ => none
  | ninf, y =>
    match y with
    | nan => none
    | ninf => some Ordering.eq
    | _ => some Ordering.lt
  | inf, y =>
    match y with
    | nan => none
    | inf => some Ordering.eq
    | _ => some Ordering.gt
  | fin a, y =>
    match y with
    | nan => none
    | ninf => some Ordering.gt
    | inf => some Ordering.lt
    | fin b =>
      if a < b then some Ordering.lt else if a = b then some Ordering.eq
      else some Ordering.gt

/-- The non-strict comparison derived from `pcmp` the way the source's sort
comparator uses it (`Less`/`Equal` count as ≤; an incomparable pair counts as
≤ too, but the checked sort below never exercises that case). -/
def F.leb (x y : F) : Bool :=
  match F.pcmp x y with
  | some Ordering.gt => false
  | _ => true

/-! ## Checked stable sort (model of `Vec::sort_by` with a comparator that
unwraps `partial_cmp`) -/

/-- Stable insertion into an ascending-sorted list. -/
def ordered_insert {α : Type} (le : α → α → Bool) (x : α) : List α → List α
  | [] => [x]
  | y :: ys => if le x y then x :: y :: ys else y :: ordered_insert le x ys

/-- Stable insertion sort (inserting each element into the sorted tail keeps
equal elements in their original relative order). -/
def insertion_sort {α : Type} (le : α → α → Bool) : List α → List α
  | [] => []
  | a :: l => ordered_insert le a (insertion_sort le l)

/-- Whether the comparator succeeds on every pair of elements at distinct
positions of `l`. -/
def allComparable {α : Type} (cmp : α → α → Option Ordering) : List α → Bool
  | [] => true
  | x :: xs => (xs.all fun y => (cmp x y).isSome) && allComparable cmp xs

/-- Model of `Vec::sort_by` with the comparator
`|a, b| cmp(a, b).unwrap()`: Rust's stable sort panics (modelled as `none`)
when the comparator panics on a pair it compares; which pairs are compared is
algorithm-dependent, modelled conservatively as every pair of elements at
distinct positions (a one-element or empty vector performs no comparison).
On a panic-free input the result is the stable ascending sort. -/
def sort_by_checked {α : Type} (cmp : α → α → Option Ordering) (l : List α) :
    Option (List α) :=
  if allComparable cmp l then
    some (insertion_sort (fun a b =>
      match cmp a b with
      | some Ordering.gt => false
      | _ => true) l)
  else none

/-! ## The in-memory model (src/model.rs:154-221) -/

/-- `PathBuf` model. -/
abbrev DocPath := String

/-- `type TermFreq = HashMap<String, usize>` (model.rs:155). -/
abbrev TermFreq := List (String × Nat)

/-- `type DocFreq = HashMap<String, usize>` (model.rs:154). -/
abbrev DocFreq := List (String × Nat)

/-- `struct Doc { tf: TermFreq, count: usize }` (model.rs:156-160). -/
structure Doc where
  tf : TermFreq
  count : Nat
deriving DecidableEq, Repr

/-- `struct InMemoryModel { docs: Docs, df: DocFreq }` (model.rs:163-167). -/
structure InMemoryModel where
  docs : List (DocPath × Doc)
  df : DocFreq
deriving DecidableEq, Repr

/-- `InMemoryModel::default()`: both maps empty. -/
def InMemoryModel.empty : InMemoryModel := ⟨[], []⟩

/-- `compute_tf` (model.rs:211-215): `m / n` with `n = doc.count` and
`m = doc.tf.get(t).cloned().unwrap_or(0)`.  Note: no guard for `n = 0`. -/
def compute_tf (t : String) (doc : Doc) : F :=
  F.div (F.ofNat (getD doc.tf t 0)) (F.ofNat doc.count)

/-- `compute_idf` (model.rs:217-221): `(n / m).log10()` with
`m = df.get(t).cloned().unwrap_or(1)`.  Note: no `max(m, 1)` clamp. -/
def compute_idf (lg : ℚ → ℚ) (t : String) (n : Nat) (df : DocFreq) : F :=
  F.log10 lg (F.div (F.ofNat n) (F.ofNat (getD df t 1)))

/-- The term-frequency map built by the `for term in Lexer::new(content)`
loop (model.rs:186-196 and main.rs:139-147). -/
def term_freq_of (content : List Char) : TermFreq :=
  (tokens content).foldl bumpA []

/-- `InMemoryModel::add_document` (model.rs:185-208).  Builds the document's
term-frequency map and token count, increments `df` once per distinct term of
the new document (never decrementing anything), and inserts the document,
replacing any document previously stored at the same path.  The source
returns `Ok(())` unconditionally, so the model returns just the new state. -/
def InMemoryModel.add_document (m : InMemoryModel) (file_path : DocPath)
    (content : List Char) : InMemoryModel :=
  let tf := term_freq_of content
  let count := (tokens content).length
  ⟨insertA m.docs file_path ⟨tf, count⟩, (keysA tf).foldl bumpA m.df⟩

/-- Folding a sequence of `add_document` calls from a starting state. -/
def add_documents (m : InMemoryModel) : List (DocPath × List Char) → InMemoryModel
  | [] => m
  | (p, c) :: rest => add_documents (m.add_document p c) rest

/-- The rank the `for token in &tokens` loop accumulates for one document
(model.rs:174-177). -/
def doc_rank (lg : ℚ → ℚ) (m : InMemoryModel) (toks : List String) (doc : Doc) : F :=
  toks.foldl
    (fun rank token =>
      F.add rank (F.mul (compute_tf token doc) (compute_idf lg token m.docs.length m.df)))
    (F.fin 0)

/-- The unsorted `(path, rank)` list the loop over `&self.docs` pushes
(model.rs:173-179). -/
def InMemoryModel.ranks (lg : ℚ → ℚ) (m : InMemoryModel) (query : List Char) :
    List (DocPath × F) :=
  m.docs.map fun pd => (pd.1, doc_rank lg m (tokens query) pd.2)

/-- `InMemoryModel::search_query` (model.rs:170-183): rank every stored
document, sort ascending by rank with `partial_cmp(..).unwrap()` (a panic,
modelled as `none`, when a compared pair of ranks is incomparable, i.e. one
is NaN), then reverse.  The source's `Ok(result)` is the `some` case. -/
def InMemoryModel.search_query (lg : ℚ → ℚ) (m : InMemoryModel)
    (query : List Char) : Option (List (DocPath × F)) :=
  (sort_by_checked (fun x y => F.pcmp x.2 y.2) (m.ranks lg query)).map List.reverse

/-! ## The sqlite model (src/model.rs:11-152) -/

/-- The three relations of `SqliteModel::open` (model.rs:37-62):
`Documents(id, path, term_count)`, `TermFreq(term, doc_id, freq)`,
`DocFreq(term, freq)`. -/
structure SqliteModel where
  documents : List (Nat × DocPath × Nat)
  termFreqTable : List (String × Nat × Nat)
  docFreqTable : List (String × Nat)
deriving DecidableEq, Repr

/-- A freshly opened database: all three tables empty. -/
def SqliteModel.emptyDb : SqliteModel := ⟨[], [], []⟩

/-- `SqliteModel::search_query` (model.rs:69-71) is `todo!()`: it panics
unconditionally, before reading any state or the query.  The panic is
modelled as `none`. -/
def SqliteModel.search_query (_m : SqliteModel) (_query : List Char) :
    Option (List (DocPath × F)) := none

/-! ## The standalone index of src/main.rs -/

/-- `type TermFreqIndex = HashMap<PathBuf, TermFreq>` (main.rs:90). -/
abbrev TermFreqIndex := List (DocPath × TermFreq)

/-- `d.iter().map(|(_, f)| *f).sum::<usize>()` (main.rs:160). -/
def sum_vals (d : TermFreq) : Nat := (d.map Prod.snd).sum

/-- `tf` (main.rs:158-162). -/
def tf_main (t : String) (d : TermFreq) : F :=
  F.div (F.ofNat (getD d t 0)) (F.ofNat (sum_vals d))

/-- `d.values().filter(|tf| tf.contains_key(t)).count()` (main.rs:166). -/
def contains_count (idx : TermFreqIndex) (t : String) : Nat :=
  (idx.filter fun pd => (getA pd.2 t).isSome).length

/-- `idf` (main.rs:164-168), with its `.max(1)` clamp. -/
def idf_main (lg : ℚ → ℚ) (t : String) (idx : TermFreqIndex) : F :=
  F.log10 lg (F.div (F.ofNat idx.length) (F.ofNat (max (contains_count idx t) 1)))

/-- The rank accumulated for one document by `search_query` (main.rs:199-202). -/
def rank_main (lg : ℚ → ℚ) (idx : TermFreqIndex) (toks : List String)
    (d : TermFreq) : F :=
  toks.foldl
    (fun rank token => F.add rank (F.mul (tf_main token d) (idf_main lg token idx)))
    (F.fin 0)

/-- `search_query` (main.rs:196-208): same scan, sort, reverse shape as the
in-memory model's, over a `TermFreqIndex`. -/
def search_query_main (lg : ℚ → ℚ) (idx : TermFreqIndex) (query : List Char) :
    Option (List (DocPath × F)) :=
  (sort_by_checked (fun x y => F.pcmp x.2 y.2)
    (idx.map fun pd => (pd.1, rank_main lg idx (tokens query) pd.2))).map List.reverse

/-! ## JSON snapshot (model of `serde_json` on the structures the code
serializes; `save_tf_index` main.rs:92-104 and the `serde_json::from_reader`
calls in the `search`/`serve` subcommands) -/

/-- JSON values (the fragment `serde_json` produces for these structures). -/
inductive Json : Type where
  | num : Nat → Json
  | str : String → Json
  | arr : List Json → Json
  | obj : List (String × Json) → Json

/-- Serialization of one `TermFreq` map: a JSON object of integer fields. -/
def tf_to_json (tf : TermFreq) : Json := Json.obj (tf.map fun kv => (kv.1, Json.num kv.2))

/-- Serialization of the whole index, as written by `save_tf_index`. -/
def tf_index_to_json (idx : TermFreqIndex) : Json :=
  Json.obj (idx.map fun kv => (kv.1, tf_to_json kv.2))

/-- Deserialization of a `TermFreq` object's fields. -/
def tf_fields_from_json : List (String × Json) → Option TermFreq
  | [] => some []
  | (k, Json.num n) :: rest => (tf_fields_from_json rest).map fun r => (k, n) :: r
  | _ => none

/-- Deserialization of a `TermFreq`. -/
def tf_from_json : Json → Option TermFreq
  | Json.obj fs => tf_fields_from_json fs
  | _ => none

/-- Deserialization of the index's fields. -/
def tf_index_fields_from_json : List (String × Json) → Option TermFreqIndex
  | [] => some []
  | (k, v) :: rest =>
    match tf_from_json v with
    | some tf => (tf_index_fields_from_json rest).map fun r => (k, tf) :: r
    | none => none

/-- Deserialization of the whole index, as read by the `search` and `serve`
subcommands. -/
def tf_index_from_json : Json → Option TermFreqIndex
  | Json.obj fs => tf_index_fields_from_json fs
  | _ => none

/-! ## Directory traversal (`tf_index_of_folder`, main.rs:106-153) -/

/-- A directory tree as the traversal observes it.  A file carries the result
of `parse_entire_xml_file` (`none` = extraction failure); a directory carries
the result of `fs::read_dir` (`none` = the directory cannot be opened or
listed).  The per-entry `file()`/`file_type()` failures, which are also fatal
in the source, are not separately modelled (no claim concerns them). -/
inductive Entry : Type where
  | file : DocPath → Option (List Char) → Entry
  | dir : DocPath → Option (List Entry) → Entry

/-- The `'next_file` loop body of `tf_index_of_folder` over a listing.  A
subdirectory recursion's error propagates out through `?`; an extraction
failure skips the file (`continue 'next_file`) without touching the index; a
successful extraction tokenizes and inserts.  The source threads the index
through `&mut`; on the error path the model drops the partially filled index
(no claim concerns its contents after an error). -/
def process_entries : List Entry → TermFreqIndex → Except Unit TermFreqIndex
  | [], idx => Except.ok idx
  | Entry.dir _ none :: _, _ => Except.error ()
  | Entry.dir _ (some sub) :: rest, idx =>
    match process_entries sub idx with
    | Except.error e => Except.error e
    | Except.ok idx2 => process_entries rest idx2
  | Entry.file _ none :: rest, idx => process_entries rest idx
  | Entry.file p (some content) :: rest, idx =>
    process_entries rest (insertA idx p (term_freq_of content))

/-- `tf_index_of_folder` (main.rs:106-153): `fs::read_dir` failure is an
immediate error; otherwise process the listing. -/
def tf_index_of_folder (listing : Option (List Entry)) (idx : TermFreqIndex) :
    Except Unit TermFreqIndex :=
  match listing with
  | none => Except.error ()
  | some entries => process_entries entries idx

/-! ## Derived measurement definitions used by the claims -/

/-- The number of stored documents whose term-frequency map contains `t` with
a positive count: the quantity the spec says `document_frequency[t]` tracks. -/
def docs_containing (docs : List (DocPath × Doc)) (t : String) : Nat :=
  (docs.filter fun pd => 0 < getD pd.2.tf t 0).length

/-- The idf formula exactly as the spec writes it,
`log10(N / max(df.get(t, 1), 1))`, to compare against `compute_idf`. -/
def idf_spec (lg : ℚ → ℚ) (t : String) (n : Nat) (df : DocFreq) : F :=
  F.log10 lg (F.div (F.ofNat n) (F.ofNat (max (getD df t 1) 1)))

/-! ## Lemmas about the association-list map model -/

theorem getA_insertA_self {α β : Type} [DecidableEq α] (l : List (α × β)) (a : α) (b : β) :
    getA (insertA l a b) a = some b := by
  induction l with
  | nil => simp [insertA, getA]
  | cons kv rest ih =>
    obtain ⟨k, v⟩ := kv
    by_cases h : a = k <;> simp [insertA, getA, h, ih]

theorem getA_insertA_ne {α β : Type} [DecidableEq α] (l : List (α × β)) (a t : α) (b : β)
    (h : t ≠ a) : getA (insertA l a b) t = getA l t := by
  induction l with
  | nil => simp [insertA, getA, h]
  | cons kv rest ih =>
    obtain ⟨k, v⟩ := kv
    by_cases hak : a = k
    · subst hak
      simp [insertA, getA, h]
    · by_cases htk : t = k <;> simp [insertA, getA, hak, htk, ih]

theorem insertA_insertA {α β : Type} [DecidableEq α] (l : List (α × β)) (a : α) (b b' : β) :
    insertA (insertA l a b) a b' = insertA l a b' := by
  induction l with
  | nil => simp [insertA]
  | cons kv rest ih =>
    obtain ⟨k, v⟩ := kv
    by_cases h : a = k <;> simp [insertA, h, ih]

theorem mem_insertA {α β : Type} [DecidableEq α] {l : List (α × β)} {a : α} {b : β}
    {kv : α × β} (h : kv ∈ insertA l a b) : kv = (a, b) ∨ kv ∈ l := by
  induction l with
  | nil => simpa [insertA] using h
  | cons kv' rest ih =>
    obtain ⟨k, v⟩ := kv'
    by_cases hak : a = k
    · subst hak
      rcases (by simpa [insertA] using h : kv = (a, b) ∨ kv ∈ rest) with h1 | h1
      · exact Or.inl h1
      · exact Or.inr (List.mem_cons_of_mem _ h1)
    · rcases (by simpa [insertA, hak] using h : kv = (k, v) ∨ kv ∈ insertA rest a b) with h1 | h1
      · exact Or.inr (by simp [h1])
      · rcases ih h1 with h2 | h2
        · exact Or.inl h2
        · exact Or.inr (List.mem_cons_of_mem _ h2)

theorem getA_mem {α β : Type} [DecidableEq α] {l : List (α × β)} {a : α} {b : β}
    (h : getA l a = some b) : (a, b) ∈ l := by
  induction l with
  | nil => simp [getA] at h
  | cons kv rest ih =>
    obtain ⟨k, v⟩ := kv
    by_cases hak : a = k
    · subst hak
      simp [getA] at h
      simp [h]
    · simp [getA, hak] at h
      exact List.mem_cons_of_mem _ (ih h)

theorem keysA_nil {α β : Type} : keysA ([] : List (α × β)) = [] := rfl

theorem keysA_cons {α β : Type} (k : α) (v : β) (l : List (α × β)) :
    keysA ((k, v) :: l) = k :: keysA l := rfl

theorem getA_eq_none_iff {α β : Type} [DecidableEq α] (l : List (α × β)) (a : α) :
    getA l a = none ↔ a ∉ keysA l := by
  induction l with
  | nil => simp [getA, keysA_nil]
  | cons kv rest ih =>
    obtain ⟨k, v⟩ := kv
    rw [keysA_cons]
    by_cases hak : a = k
    · subst hak
      simp [getA]
    · rw [getA, if_neg hak, ih]
      simp [hak]

theorem getD_bumpA {α : Type} [DecidableEq α] (l : List (α × Nat)) (a t : α) :
    getD (bumpA l a) t 0 = getD l t 0 + (if t = a then 1 else 0) := by
  unfold bumpA
  by_cases hta : t = a
  · subst hta
    cases h : getA l t with
    | none => simp [getD, h, getA_insertA_self]
    | some v => simp [getD, h, getA_insertA_self]
  · cases h : getA l a with
    | none => simp [getD, getA_insertA_ne _ _ _ _ hta, hta]
    | some v => simp [getD, getA_insertA_ne _ _ _ _ hta, hta]

theorem getD_foldl_bumpA {α : Type} [DecidableEq α] (ks : List α) (l : List (α × Nat)) (t : α) :
    getD (ks.foldl bumpA l) t 0 = getD l t 0 + ks.count t := by
  induction ks generalizing l with
  | nil => simp
  | cons k ks ih =>
    have hc : (k :: ks).count t = ks.count t + (if t = k then 1 else 0) := by
      rw [List.count_cons]
      by_cases h : t = k
      · simp [h]
      · simp [h, Ne.symm h]
    simp only [List.foldl_cons, ih, getD_bumpA, hc]
    omega

theorem keysA_insertA_mem {α β : Type} [DecidableEq α] (l : List (α × β)) (a : α) (b : β)
    (h : a ∈ keysA l) : keysA (insertA l a b) = keysA l := by
  induction l with
  | nil => simp [keysA_nil] at h
  | cons kv rest ih =>
    obtain ⟨k, v⟩ := kv
    rw [keysA_cons] at h
    by_cases hak : a = k
    · subst hak
      show keysA ((if a = a then (a, b) :: rest else (a, v) :: insertA rest a b)) = _
      simp [keysA_cons]
    · have h' : a ∈ keysA rest := by
        rcases List.mem_cons.mp h with h1 | h1
        · exact absurd h1 hak
        · exact h1
      show keysA ((if a = k then (a, b) :: rest else (k, v) :: insertA rest a b)) = _
      rw [if_neg hak, keysA_cons, keysA_cons, ih h']

theorem keysA_insertA_not_mem {α β : Type} [DecidableEq α] (l : List (α × β)) (a : α) (b : β)
    (h : a ∉ keysA l) : keysA (insertA l a b) = keysA l ++ [a] := by
  induction l with
  | nil => simp [insertA, keysA_nil, keysA_cons]
  | cons kv rest ih =>
    obtain ⟨k, v⟩ := kv
    rw [keysA_cons] at h
    have hak : a ≠ k := fun hk => h (by simp [hk])
    have h' : a ∉ keysA rest := fun hr => h (List.mem_cons_of_mem _ hr)
    show keysA ((if a = k then (a, b) :: rest else (k, v) :: insertA rest a b)) = _
    rw [if_neg hak, keysA_cons, keysA_cons, ih h']
    rfl

theorem keysA_bumpA {α : Type} [DecidableEq α] (l : List (α × Nat)) (a : α) :
    keysA (bumpA l a) = if a ∈ keysA l then keysA l else keysA l ++ [a] := by
  unfold bumpA
  by_cases h : a ∈ keysA l
  · have : getA l a ≠ none := by
      intro hn
      exact ((getA_eq_none_iff l a).mp hn) h
    cases hg : getA l a with
    | none => exact absurd hg this
    | some v => simp [h, keysA_insertA_mem _ _ _ h]
  · have hg : getA l a = none := (getA_eq_none_iff l a).mpr h
    simp [hg, h, keysA_insertA_not_mem _ _ _ h]

theorem keysA_bumpA_nodup {α : Type} [DecidableEq α] (l : List (α × Nat)) (a : α)
    (h : (keysA l).Nodup) : (keysA (bumpA l a)).Nodup := by
  rw [keysA_bumpA]
  by_cases hm : a ∈ keysA l
  · simpa [hm] using h
  · simp [hm, List.nodup_append, h, hm]

theorem keysA_foldl_bumpA_nodup {α : Type} [DecidableEq α] (ks : List α)
    (l : List (α × Nat)) (h : (keysA l).Nodup) : (keysA (ks.foldl bumpA l)).Nodup := by
  induction ks generalizing l with
  | nil => simpa using h
  | cons k ks ih => exact ih _ (keysA_bumpA_nodup _ _ h)

theorem bumpA_values_pos {α : Type} [DecidableEq α] (l : List (α × Nat)) (a : α)
    (h : ∀ kv ∈ l, 0 < kv.2) : ∀ kv ∈ bumpA l a, 0 < kv.2 := by
  intro kv hkv
  unfold bumpA at hkv
  cases hg : getA l a with
  | none =>
    rw [hg] at hkv
    rcases mem_insertA hkv with h1 | h1
    · simp [h1]
    · exact h _ h1
  | some v =>
    rw [hg] at hkv
    rcases mem_insertA hkv with h1 | h1
    · simp [h1]
    · exact h _ h1

theorem foldl_bumpA_values_pos {α : Type} [DecidableEq α] (ks : List α)
    (l : List (α × Nat)) (h : ∀ kv ∈ l, 0 < kv.2) :
    ∀ kv ∈ ks.foldl bumpA l, 0 < kv.2 := by
  induction ks generalizing l with
  | nil => simpa using h
  | cons k ks ih => exact ih _ (bumpA_values_pos _ _ h)

theorem term_freq_of_keys_nodup (content : List Char) :
    (keysA (term_freq_of content)).Nodup := by
  unfold term_freq_of
  exact keysA_foldl_bumpA_nodup _ _ (by simp [keysA])

theorem term_freq_of_values_pos (content : List Char) :
    ∀ kv ∈ term_freq_of content, 0 < kv.2 := by
  unfold term_freq_of
  exact foldl_bumpA_values_pos _ _ (by simp)

theorem mem_keysA_iff_getD_pos {α : Type} [DecidableEq α] (l : List (α × Nat))
    (hpos : ∀ kv ∈ l, 0 < kv.2) (t : α) : t ∈ keysA l ↔ 0 < getD l t 0 := by
  constructor
  · intro h
    cases hg : getA l t with
    | none => exact absurd h ((getA_eq_none_iff l t).mp hg)
    | some v =>
      have := hpos _ (getA_mem hg)
      simp [getD, hg]
      exact this
  · intro h
    by_contra hm
    have := (getA_eq_none_iff l t).mpr hm
    simp [getD, this] at h

/-! ## Lemmas about the tokenizer -/

theorem next_token_nil : next_token [] = none := rfl

theorem next_token_shrinks {content : List Char} {t : String} {rest : List Char}
    (h : next_token content = some (t, rest)) : rest.length < content.length := by
  have htrim : (trim_left content).length ≤ content.length :=
    (List.dropWhile_sublist _).length_le
  cases htl : trim_left content with
  | nil =>
    rw [next_token, htl] at h
    exact absurd h (by simp)
  | cons c cs =>
    rw [htl] at htrim
    simp only [next_token, htl] at h
    by_cases hnum : isNumericM c
    · rw [if_pos hnum] at h
      have hr : rest = (c :: cs).dropWhile isNumericM := by
        injection h with h1
        injection h1 with h2 h3
        exact h3.symm
      have : ((c :: cs).dropWhile isNumericM).length ≤ cs.length := by
        rw [List.dropWhile_cons_of_pos hnum]
        exact (List.dropWhile_sublist _).length_le
      rw [hr]
      calc ((c :: cs).dropWhile isNumericM).length ≤ cs.length := this
        _ < (c :: cs).length := by simp
        _ ≤ content.length := htrim
    · rw [if_neg hnum] at h
      by_cases halpha : isAlphabeticM c
      · rw [if_pos halpha] at h
        have hr : rest = (c :: cs).dropWhile isAlphanumericM := by
          injection h with h1
          injection h1 with h2 h3
          exact h3.symm
        have hc : isAlphanumericM c = true := by
          unfold isAlphanumericM
          simp [halpha]
        have : ((c :: cs).dropWhile isAlphanumericM).length ≤ cs.length := by
          rw [List.dropWhile_cons_of_pos hc]
          exact (List.dropWhile_sublist _).length_le
        rw [hr]
        calc ((c :: cs).dropWhile isAlphanumericM).length ≤ cs.length := this
          _ < (c :: cs).length := by simp
          _ ≤ content.length := htrim
      · rw [if_neg halpha] at h
        have hr : rest = cs := by
          injection h with h1
          injection h1 with h2 h3
          exact h3.symm
        rw [hr]
        calc cs.length < (c :: cs).length := by simp
          _ ≤ content.length := htrim

theorem tokensFuel_congr : ∀ (f1 f2 : Nat) (content : List Char),
    content.length ≤ f1 → content.length ≤ f2 →
    tokensFuel f1 content = tokensFuel f2 content := by
  intro f1
  induction f1 with
  | zero =>
    intro f2 content h1 _
    have : content = [] := List.eq_nil_of_length_eq_zero (Nat.le_zero.mp h1)
    subst this
    cases f2 with
    | zero => rfl
    | succ f2 => simp [tokensFuel, next_token_nil]
  | succ f1 ih =>
    intro f2 content h1 h2
    cases f2 with
    | zero =>
      have : content = [] := List.eq_nil_of_length_eq_zero (Nat.le_zero.mp h2)
      subst this
      simp [tokensFuel, next_token_nil]
    | succ f2 =>
      show (match next_token content with
            | none => []
            | some (t, rest) => t :: tokensFuel f1 rest) =
           (match next_token content with
            | none => []
            | some (t, rest) => t :: tokensFuel f2 rest)
      cases hnt : next_token content with
      | none => rfl
      | some tr =>
        obtain ⟨t, rest⟩ := tr
        have hlt := next_token_shrinks hnt
        have hr1 : rest.length ≤ f1 := by omega
        have hr2 : rest.length ≤ f2 := by omega
        simp only []
        rw [ih f2 rest hr1 hr2]

theorem tokens_unfold (content : List Char) :
    tokens content =
      match next_token content with
      | none => []
      | some (t, rest) => t :: tokens rest := by
  unfold tokens
  cases hl : content.length with
  | zero =>
    have : content = [] := List.eq_nil_of_length_eq_zero hl
    subst this
    simp [tokensFuel, next_token_nil]
  | succ n =>
    show (match next_token content with
          | none => []
          | some (t, rest) => t :: tokensFuel n rest) = _
    cases hnt : next_token content with
    | none => rfl
    | some tr =>
      obtain ⟨t, rest⟩ := tr
      have hlt := next_token_shrinks hnt
      rw [hl] at hlt
      simp only []
      rw [tokensFuel_congr n rest.length rest (by omega) (le_refl _)]

/-! ## Case-folding lemmas for the tokenizer -/

theorem toNat_ofNat_small (n : Nat) (h : n < 55296) : (Char.ofNat n).toNat = n := by
  unfold Char.ofNat
  rw [dif_pos (Or.inl h)]
  rfl

theorem isAsciiLower_to_ascii_uppercase (c : Char) :
    isAsciiLower (to_ascii_uppercase c) = false := by
  unfold to_ascii_uppercase
  by_cases h : (97 ≤ c.toNat && c.toNat ≤ 122) = true
  · rw [if_pos h]
    simp only [Bool.and_eq_true, decide_eq_true_eq] at h
    have hn : c.toNat - 32 < 55296 := by omega
    simp only [isAsciiLower, toNat_ofNat_small _ hn]
    have : ¬(97 ≤ c.toNat - 32) := by omega
    simp [this]
  · rw [if_neg h]
    simp only [Bool.and_eq_true, decide_eq_true_eq, not_and, not_le] at h
    simp only [isAsciiLower, Bool.and_eq_false_iff]
    by_cases h97 : 97 ≤ c.toNat
    · have := h h97
      right
      simp
      omega
    · left
      simp
      omega

theorem isNumericM_not_lower (c : Char) (h : isNumericM c = true) :
    isAsciiLower c = false := by
  simp only [isNumericM, Bool.and_eq_true, decide_eq_true_eq] at h
  simp only [isAsciiLower, Bool.and_eq_false_iff]
  left
  simp
  omega

theorem not_alphabetic_not_lower (c : Char) (h : isAlphabeticM c = false) :
    isAsciiLower c = false := by
  simp only [isAlphabeticM, Bool.or_eq_false_iff] at h
  exact h.1.2

theorem isNumericM_not_ws (c : Char) (h : isNumericM c = true) :
    isWhitespaceM c = false := by
  by_contra hw
  rw [Bool.not_eq_false] at hw
  have hmem : c ∈ ['\t', '\n', '\x0b', '\x0c', '\r', ' ', '\u0085', '\u00a0',
      '\u1680', '\u2000', '\u2001', '\u2002', '\u2003', '\u2004', '\u2005',
      '\u2006', '\u2007', '\u2008', '\u2009', '\u200a', '\u2028', '\u2029',
      '\u202f', '\u205f', '\u3000'] := List.elem_iff.mp hw
  fin_cases hmem <;> exact absurd h (by decide)

theorem next_token_no_lower {content : List Char} {t : String} {rest : List Char}
    (h : next_token content = some (t, rest)) : ∀ c ∈ t.data, isAsciiLower c = false := by
  cases htl : trim_left content with
  | nil =>
    rw [next_token, htl] at h
    exact absurd h (by simp)
  | cons c cs =>
    simp only [next_token, htl] at h
    by_cases hnum : isNumericM c
    · rw [if_pos hnum] at h
      have ht : t.data = (c :: cs).takeWhile isNumericM := by
        injection h with h1
        injection h1 with h2 h3
        exact congrArg String.data h2.symm
      intro x hx
      rw [ht] at hx
      exact isNumericM_not_lower x (List.mem_takeWhile_imp hx)
    · rw [if_neg hnum] at h
      by_cases halpha : isAlphabeticM c
      · rw [if_pos halpha] at h
        have ht : t.data = ((c :: cs).takeWhile isAlphanumericM).map to_ascii_uppercase := by
          injection h with h1
          injection h1 with h2 h3
          exact congrArg String.data h2.symm
        intro x hx
        rw [ht] at hx
        obtain ⟨y, _, hy⟩ := List.mem_map.mp hx
        rw [← hy]
        exact isAsciiLower_to_ascii_uppercase y
      · rw [if_neg halpha] at h
        have ht : t.data = [c] := by
          injection h with h1
          injection h1 with h2 h3
          exact congrArg String.data h2.symm
        intro x hx
        rw [ht] at hx
        rcases List.mem_singleton.mp hx with rfl
        exact not_alphabetic_not_lower x (Bool.not_eq_true _ ▸ (by simpa using halpha))

theorem tokens_no_lower_aux : ∀ (n : Nat) (content : List Char), content.length ≤ n →
    ∀ t ∈ tokens content, ∀ c ∈ t.data, isAsciiLower c = false := by
  intro n
  induction n with
  | zero =>
    intro content hlen t ht
    have : content = [] := List.eq_nil_of_length_eq_zero (Nat.le_zero.mp hlen)
    subst this
    simp [tokens, tokensFuel] at ht
  | succ n ih =>
    intro content hlen t ht
    rw [tokens_unfold] at ht
    cases hnt : next_token content with
    | none => rw [hnt] at ht; simp at ht
    | some tr =>
      obtain ⟨t', rest⟩ := tr
      rw [hnt] at ht
      rcases List.mem_cons.mp ht with rfl | hmem
      · exact next_token_no_lower hnt
      · have := next_token_shrinks hnt
        exact ih rest (by omega) t hmem

/-! ## Lemmas about the `f32` comparison model -/

theorem F.pcmp_isSome_iff (x y : F) :
    (F.pcmp x y).isSome = true ↔ x ≠ F.nan ∧ y ≠ F.nan := by
  cases x <;> cases y <;> simp [F.pcmp] <;> split_ifs <;> simp

theorem F.pcmp_fin_fin (a b : ℚ) :
    F.pcmp (F.fin a) (F.fin b) =
      if a < b then some Ordering.lt
      else if a = b then some Ordering.eq else some Ordering.gt := rfl

theorem F.pcmp_gt_lt {x y : F} (h : F.pcmp x y = some Ordering.gt) :
    F.pcmp y x = some Ordering.lt := by
  cases x <;> cases y
  case fin.fin a b =>
    rw [F.pcmp_fin_fin] at h
    rw [F.pcmp_fin_fin]
    split_ifs at h with h1 h2
    · exact absurd h (by simp)
    · exact absurd h (by simp)
    · have hba : b < a := lt_of_le_of_ne (not_lt.mp h1) (fun hba => h2 hba.symm)
      rw [if_pos hba]
  all_goals first | rfl | simp [F.pcmp] at h

theorem F.leb_refl (x : F) : F.leb x x = true := by
  cases x <;> simp [F.leb, F.pcmp]

theorem F.leb_total (x y : F) : F.leb x y = true ∨ F.leb y x = true := by
  by_cases h : F.pcmp x y = some Ordering.gt
  · right
    unfold F.leb
    rw [F.pcmp_gt_lt h]
  · left
    unfold F.leb
    cases hp : F.pcmp x y with
    | none => rfl
    | some o => cases o <;> simp_all

theorem F.leb_fin_iff (a b : ℚ) : F.leb (F.fin a) (F.fin b) = true ↔ a ≤ b := by
  unfold F.leb
  rw [F.pcmp_fin_fin]
  split_ifs with h1 h2
  · simp [le_of_lt h1]
  · simp [le_of_eq h2]
  · have hba : b < a := lt_of_le_of_ne (not_lt.mp h1) (fun hba => h2 hba.symm)
    simp [not_le.mpr hba]

theorem F.leb_trans_nonnan {x y z : F} (hx : x ≠ F.nan) (hy : y ≠ F.nan)
    (hz : z ≠ F.nan) (h1 : F.leb x y = true) (h2 : F.leb y z = true) :
    F.leb x z = true := by
  cases x with
  | nan => exact absurd rfl hx
  | ninf => cases z <;> simp [F.leb, F.pcmp] at * <;> cases y <;> simp_all [F.leb, F.pcmp]
  | inf =>
    cases y with
    | nan => exact absurd rfl hy
    | inf =>
      cases z with
      | nan => exact absurd rfl hz
      | _ => exact h2
    | ninf => simp [F.leb, F.pcmp] at h1
    | fin b => simp [F.leb, F.pcmp] at h1
  | fin a =>
    cases y with
    | nan => exact absurd rfl hy
    | inf =>
      cases z with
      | nan => exact absurd rfl hz
      | inf => simp [F.leb, F.pcmp]
      | ninf => simp [F.leb, F.pcmp] at h2
      | fin c => simp [F.leb, F.pcmp] at h2
    | ninf => simp [F.leb, F.pcmp] at h1
    | fin b =>
      cases z with
      | nan => exact absurd rfl hz
      | inf => simp [F.leb, F.pcmp]
      | ninf => simp [F.leb, F.pcmp] at h2
      | fin c =>
        rw [F.leb_fin_iff] at h1 h2 ⊢
        exact le_trans h1 h2

/-! ## Lemmas about the checked stable sort -/

theorem ordered_insert_perm {α : Type} (le : α → α → Bool) (x : α) (l : List α) :
    (ordered_insert le x l).Perm (x :: l) := by
  induction l with
  | nil => exact List.Perm.refl _
  | cons y ys ih =>
    unfold ordered_insert
    by_cases h : le x y
    · rw [if_pos h]
    · rw [if_neg h]
      exact (List.Perm.cons y ih).trans (List.Perm.swap x y ys)

theorem insertion_sort_perm {α : Type} (le : α → α → Bool) (l : List α) :
    (insertion_sort le l).Perm l := by
  induction l with
  | nil => exact List.Perm.refl _
  | cons a l ih =>
    unfold insertion_sort
    exact (ordered_insert_perm le a _).trans (List.Perm.cons a ih)

theorem mem_ordered_insert {α : Type} {le : α → α → Bool} {x z : α} {l : List α}
    (h : z ∈ ordered_insert le x l) : z = x ∨ z ∈ l := by
  have := (ordered_insert_perm le x l).mem_iff.mp h
  simpa using this

theorem mem_insertion_sort {α : Type} {le : α → α → Bool} {z : α} {l : List α}
    (h : z ∈ insertion_sort le l) : z ∈ l :=
  (insertion_sort_perm le l).mem_iff.mp h

theorem pairwise_ordered_insert {α : Type} (le : α → α → Bool) (x : α) (l : List α)
    (htot : ∀ a b, le a b = true ∨ le b a = true)
    (htrans : ∀ a b c, a ∈ x :: l → b ∈ x :: l → c ∈ x :: l →
      le a b = true → le b c = true → le a c = true)
    (hs : l.Pairwise (fun a b => le a b = true)) :
    (ordered_insert le x l).Pairwise (fun a b => le a b = true) := by
  induction l with
  | nil => simp [ordered_insert]
  | cons y ys ih =>
    rcases List.pairwise_cons.mp hs with ⟨hy, hys⟩
    unfold ordered_insert
    by_cases h : le x y
    · rw [if_pos h]
      refine List.pairwise_cons.mpr ⟨?_, hs⟩
      intro z hz
      rcases List.mem_cons.mp hz with rfl | hz'
      · exact h
      · exact htrans x y z (by simp) (by simp) (by simp [hz']) h (hy z hz')
    · rw [if_neg h]
      rcases htot x y with h1 | h1
      · exact absurd h1 h
      · refine List.pairwise_cons.mpr ⟨?_, ?_⟩
        · intro z hz
          rcases mem_ordered_insert hz with rfl | hz'
          · exact h1
          · exact hy z hz'
        · refine ih ?_ hys
          intro a b c ha hb hc
          have sub : ∀ w, w ∈ x :: ys → w ∈ x :: y :: ys := by
            intro w hw
            rcases List.mem_cons.mp hw with rfl | hw'
            · simp
            · simp [hw']
          exact htrans a b c (sub a ha) (sub b hb) (sub c hc)

theorem pairwise_insertion_sort {α : Type} (le : α → α → Bool) (l : List α)
    (htot : ∀ a b, le a b = true ∨ le b a = true)
    (htrans : ∀ a b c, a ∈ l → b ∈ l → c ∈ l →
      le a b = true → le b c = true → le a c = true) :
    (insertion_sort le l).Pairwise (fun a b => le a b = true) := by
  induction l with
  | nil => simp [insertion_sort]
  | cons a l ih =>
    unfold insertion_sort
    refine pairwise_ordered_insert le a _ htot ?_ ?_
    · intro p q r hp hq hr
      have sub : ∀ w, w ∈ a :: insertion_sort le l → w ∈ a :: l := by
        intro w hw
        rcases List.mem_cons.mp hw with rfl | hw'
        · simp
        · simp [mem_insertion_sort hw']
      exact htrans p q r (sub p hp) (sub q hq) (sub r hr)
    · refine ih ?_
      intro p q r hp hq hr
      exact htrans p q r (by simp [hp]) (by simp [hq]) (by simp [hr])

theorem allComparable_mem {α : Type} (cmp : α → α → Option Ordering)
    (hsym : ∀ a b, (cmp a b).isSome = (cmp b a).isSome) :
    ∀ (l : List α), allComparable cmp l = true →
    ∀ x ∈ l, ∀ y ∈ l, x = y ∨ (cmp x y).isSome = true := by
  intro l
  induction l with
  | nil => intro _ x hx; simp at hx
  | cons z zs ih =>
    intro h x hx y hy
    rcases Bool.and_eq_true _ _ |>.mp h with ⟨hall, hrest⟩
    rw [List.all_eq_true] at hall
    rcases List.mem_cons.mp hx with rfl | hx' <;> rcases List.mem_cons.mp hy with rfl | hy'
    · exact Or.inl rfl
    · exact Or.inr (hall y hy')
    · refine Or.inr ?_
      rw [hsym]
      exact hall x hx'
    · exact ih hrest x hx' y hy'

theorem sort_by_checked_some {α : Type} {cmp : α → α → Option Ordering}
    {l out : List α} (h : sort_by_checked cmp l = some out) :
    allComparable cmp l = true ∧
    out = insertion_sort (fun a b =>
      match cmp a b with
      | some Ordering.gt => false
      | _ => true) l := by
  unfold sort_by_checked at h
  split_ifs at h with hc
  · exact ⟨hc, (Option.some.inj h).symm⟩

/-! ## Evaluation lemmas for the `f32` model -/

theorem F.div_fin_fin (a b : ℚ) (h : b ≠ 0) : F.div (F.fin a) (F.fin b) = F.fin (a / b) := by
  simp [F.div, h]

theorem F.log10_fin_pos (lg : ℚ → ℚ) (q : ℚ) (h : 0 < q) :
    F.log10 lg (F.fin q) = F.fin (lg q) := by
  simp [F.log10, not_lt.mpr (le_of_lt h), ne_of_gt h]

theorem F.mul_fin_fin (a b : ℚ) : F.mul (F.fin a) (F.fin b) = F.fin (a * b) := rfl

theorem F.add_fin_fin (a b : ℚ) : F.add (F.fin a) (F.fin b) = F.fin (a + b) := rfl

/-! ## Lemmas about `add_document` and the document-frequency invariant -/

theorem insertA_not_mem {α β : Type} [DecidableEq α] (l : List (α × β)) (a : α) (b : β)
    (h : a ∉ keysA l) : insertA l a b = l ++ [(a, b)] := by
  induction l with
  | nil => rfl
  | cons kv rest ih =>
    obtain ⟨k, v⟩ := kv
    rw [keysA_cons] at h
    have hak : a ≠ k := fun hk => h (by simp [hk])
    have h' : a ∉ keysA rest := fun hr => h (List.mem_cons_of_mem _ hr)
    show (if a = k then (a, b) :: rest else (k, v) :: insertA rest a b) = _
    rw [if_neg hak, ih h']
    rfl

theorem docs_containing_append (docs : List (DocPath × Doc)) (x : DocPath × Doc)
    (t : String) :
    docs_containing (docs ++ [x]) t =
      docs_containing docs t + (if 0 < getD x.2.tf t 0 then 1 else 0) := by
  unfold docs_containing
  rw [List.filter_append, List.length_append]
  by_cases h : 0 < getD x.2.tf t 0 <;> simp [h]

theorem count_keysA_term_freq_of (c : List Char) (t : String) :
    (keysA (term_freq_of c)).count t =
      if 0 < getD (term_freq_of c) t 0 then 1 else 0 := by
  have hnd := term_freq_of_keys_nodup c
  have hiff := mem_keysA_iff_getD_pos (term_freq_of c) (term_freq_of_values_pos c) t
  by_cases h : 0 < getD (term_freq_of c) t 0
  · rw [if_pos h]
    have hmem : t ∈ keysA (term_freq_of c) := hiff.mpr h
    exact List.count_eq_one_of_mem hnd hmem
  · rw [if_neg h]
    have hmem : t ∉ keysA (term_freq_of c) := fun hm => h (hiff.mp hm)
    exact List.count_eq_zero.mpr hmem

theorem add_document_docs (m : InMemoryModel) (p : DocPath) (c : List Char)
    (hfresh : p ∉ keysA m.docs) :
    (m.add_document p c).docs =
      m.docs ++ [(p, ⟨term_freq_of c, (tokens c).length⟩)] := by
  unfold InMemoryModel.add_document
  exact insertA_not_mem _ _ _ hfresh

theorem add_document_df_getD (m : InMemoryModel) (p : DocPath) (c : List Char)
    (t : String) :
    getD (m.add_document p c).df t 0 =
      getD m.df t 0 + (keysA (term_freq_of c)).count t := by
  unfold InMemoryModel.add_document
  exact getD_foldl_bumpA _ _ _

theorem add_document_invariant (m : InMemoryModel) (p : DocPath) (c : List Char)
    (hfresh : p ∉ keysA m.docs)
    (hinv : ∀ t, getD m.df t 0 = docs_containing m.docs t) :
    ∀ t, getD (m.add_document p c).df t 0 =
      docs_containing (m.add_document p c).docs t := by
  intro t
  rw [add_document_df_getD, add_document_docs _ _ _ hfresh, docs_containing_append,
    count_keysA_term_freq_of, hinv]

theorem add_documents_invariant : ∀ (inputs : List (DocPath × List Char))
    (m : InMemoryModel), (inputs.map Prod.fst).Nodup →
    (∀ q ∈ inputs.map Prod.fst, q ∉ keysA m.docs) →
    (∀ t, getD m.df t 0 = docs_containing m.docs t) →
    ∀ t, getD (add_documents m inputs).df t 0 =
      docs_containing (add_documents m inputs).docs t := by
  intro inputs
  induction inputs with
  | nil => intro m _ _ hinv t; exact hinv t
  | cons pc rest ih =>
    obtain ⟨p, c⟩ := pc
    intro m hnodup hfresh hinv t
    have hpfresh : p ∉ keysA m.docs := hfresh p (by simp)
    have hkeys : keysA (m.add_document p c).docs = keysA m.docs ++ [p] := by
      rw [add_document_docs _ _ _ hpfresh]
      unfold keysA
      simp
    have hnodup' : (rest.map Prod.fst).Nodup := by
      rw [List.map_cons] at hnodup
      exact hnodup.of_cons
    have hhead : p ∉ rest.map Prod.fst := by
      rw [List.map_cons] at hnodup
      exact (List.nodup_cons.mp hnodup).1
    refine ih (m.add_document p c) hnodup' ?_ (add_document_invariant m p c hpfresh hinv) t
    intro q hq
    rw [hkeys]
    intro hqmem
    rcases List.mem_append.mp hqmem with h1 | h1
    · exact hfresh q (by simp [hq]) h1
    · rcases List.mem_singleton.mp h1 with rfl
      exact hhead hq

/-! ## Totality of `search_query` on well-formed corpora -/

theorem add_documents_df_pos : ∀ (inputs : List (DocPath × List Char))
    (m : InMemoryModel), (∀ kv ∈ m.df, 0 < kv.2) →
    ∀ kv ∈ (add_documents m inputs).df, 0 < kv.2 := by
  intro inputs
  induction inputs with
  | nil => intro m h; exact h
  | cons pc rest ih =>
    obtain ⟨p, c⟩ := pc
    intro m h
    refine ih (m.add_document p c) ?_
    unfold InMemoryModel.add_document
    exact foldl_bumpA_values_pos _ _ h

theorem getD_df_pos (df : DocFreq) (hdf : ∀ kv ∈ df, 0 < kv.2) (t : String) :
    0 < getD df t 1 := by
  cases hg : getA df t with
  | none => simp [getD, hg]
  | some v =>
    have := hdf _ (getA_mem hg)
    simpa [getD, hg] using this

theorem compute_tf_fin (t : String) (doc : Doc) (h : 0 < doc.count) :
    compute_tf t doc =
      F.fin ((Nat.cast (getD doc.tf t 0) : ℚ) / (Nat.cast doc.count : ℚ)) := by
  unfold compute_tf F.ofNat
  exact F.div_fin_fin _ _ (Nat.cast_ne_zero.mpr h.ne')

theorem compute_idf_fin (lg : ℚ → ℚ) (t : String) (n : Nat) (df : DocFreq)
    (hn : 0 < n) (hdf : ∀ kv ∈ df, 0 < kv.2) :
    compute_idf lg t n df =
      F.fin (lg ((Nat.cast n : ℚ) / (Nat.cast (getD df t 1) : ℚ))) := by
  have hd := getD_df_pos df hdf t
  unfold compute_idf F.ofNat
  rw [F.div_fin_fin _ _ (Nat.cast_ne_zero.mpr hd.ne')]
  exact F.log10_fin_pos _ _ (div_pos (by exact_mod_cast hn) (by exact_mod_cast hd))

theorem doc_rank_fin (lg : ℚ → ℚ) (m : InMemoryModel) (toks : List String) (doc : Doc)
    (hdf : ∀ kv ∈ m.df, 0 < kv.2) (hcount : 0 < doc.count) (hne : 0 < m.docs.length) :
    ∃ q, doc_rank lg m toks doc = F.fin q := by
  unfold doc_rank
  suffices h : ∀ (r : ℚ), ∃ q,
      toks.foldl (fun rank token =>
        F.add rank (F.mul (compute_tf token doc)
          (compute_idf lg token m.docs.length m.df))) (F.fin r) = F.fin q by
    exact h 0
  induction toks with
  | nil => intro r; exact ⟨r, rfl⟩
  | cons tk toks ih =>
    intro r
    rw [List.foldl_cons, compute_tf_fin tk doc hcount,
      compute_idf_fin lg tk m.docs.length m.df hne hdf, F.mul_fin_fin, F.add_fin_fin]
    exact ih _

theorem ranks_all_fin (lg : ℚ → ℚ) (m : InMemoryModel) (q : List Char)
    (hdf : ∀ kv ∈ m.df, 0 < kv.2) (hcounts : ∀ pd ∈ m.docs, 0 < pd.2.count) :
    ∀ x ∈ m.ranks lg q, ∃ r, x.2 = F.fin r := by
  intro x hx
  unfold InMemoryModel.ranks at hx
  obtain ⟨pd, hpd, rfl⟩ := List.mem_map.mp hx
  have hne : 0 < m.docs.length := List.length_pos.mpr (List.ne_nil_of_mem hpd)
  obtain ⟨r, hr⟩ := doc_rank_fin lg m (tokens q) pd.2 hdf (hcounts pd hpd) hne
  exact ⟨r, hr⟩

theorem allComparable_of_all_fin (l : List (DocPath × F))
    (h : ∀ x ∈ l, ∃ r, x.2 = F.fin r) :
    allComparable (fun x y => F.pcmp x.2 y.2) l = true := by
  induction l with
  | nil => rfl
  | cons x xs ih =>
    unfold allComparable
    rw [Bool.and_eq_true]
    constructor
    · rw [List.all_eq_true]
      intro y hy
      obtain ⟨rx, hrx⟩ := h x (by simp)
      obtain ⟨ry, hry⟩ := h y (by simp [hy])
      rw [hrx, hry]
      simp [F.pcmp_fin_fin]
      split_ifs <;> simp
    · exact ih (fun y hy => h y (by simp [hy]))

theorem sort_by_checked_of_allComparable {α : Type} (cmp : α → α → Option Ordering)
    (l : List α) (h : allComparable cmp l = true) :
    sort_by_checked cmp l = some (insertion_sort (fun a b =>
      match cmp a b with
      | some Ordering.gt => false
      | _ => true) l) := by
  unfold sort_by_checked
  rw [if_pos h]

/-! ## JSON snapshot round-trip lemmas -/

theorem tf_fields_roundtrip (tf : TermFreq) :
    tf_fields_from_json (tf.map fun kv => (kv.1, Json.num kv.2)) = some tf := by
  induction tf with
  | nil => rfl
  | cons kv rest ih =>
    obtain ⟨k, n⟩ := kv
    simp [tf_fields_from_json, ih]

theorem tf_roundtrip (tf : TermFreq) : tf_from_json (tf_to_json tf) = some tf := by
  unfold tf_to_json tf_from_json
  exact tf_fields_roundtrip tf

theorem tf_index_fields_roundtrip (idx : TermFreqIndex) :
    tf_index_fields_from_json (idx.map fun kv => (kv.1, tf_to_json kv.2)) = some idx := by
  induction idx with
  | nil => rfl
  | cons kv rest ih =>
    obtain ⟨p, tf⟩ := kv
    simp [tf_index_fields_from_json, tf_roundtrip, ih]

/-! ## Traversal lemmas -/

theorem process_entries_nil (idx : TermFreqIndex) : process_entries [] idx = Except.ok idx := by
  simp [process_entries]

theorem process_entries_file_none (p : DocPath) (rest : List Entry) (idx : TermFreqIndex) :
    process_entries (Entry.file p none :: rest) idx = process_entries rest idx := by
  simp [process_entries]

theorem process_entries_file_some (p : DocPath) (content : List Char) (rest : List Entry)
    (idx : TermFreqIndex) :
    process_entries (Entry.file p (some content) :: rest) idx =
      process_entries rest (insertA idx p (term_freq_of content)) := by
  simp [process_entries]

theorem process_entries_dir_none (d : DocPath) (rest : List Entry) (idx : TermFreqIndex) :
    process_entries (Entry.dir d none :: rest) idx = Except.error () := by
  simp [process_entries]

theorem process_entries_dir_some (d : DocPath) (sub rest : List Entry) (idx : TermFreqIndex) :
    process_entries (Entry.dir d (some sub) :: rest) idx =
      match process_entries sub idx with
      | Except.error e => Except.error e
      | Except.ok idx2 => process_entries rest idx2 := by
  simp [process_entries]

theorem process_entries_skip (pre : List Entry) (p : DocPath) (post : List Entry) :
    ∀ idx : TermFreqIndex,
      process_entries (pre ++ Entry.file p none :: post) idx =
        process_entries (pre ++ post) idx := by
  induction pre with
  | nil => intro idx; simp [process_entries_file_none]
  | cons e pre ih =>
    intro idx
    cases e with
    | file p' ext =>
      cases ext with
      | none => simp only [List.cons_append, process_entries_file_none, ih]
      | some content => simp only [List.cons_append, process_entries_file_some, ih]
    | dir d listing =>
      cases listing with
      | none => simp only [List.cons_append, process_entries_dir_none]
      | some sub =>
        simp only [List.cons_append, process_entries_dir_some]
        cases process_entries sub idx with
        | error e => rfl
        | ok idx2 => exact ih idx2

theorem process_entries_dir_abort (pre : List Entry) (d : DocPath) (post : List Entry) :
    ∀ idx j : TermFreqIndex, process_entries pre idx = Except.ok j →
      process_entries (pre ++ Entry.dir d none :: post) idx = Except.error () := by
  induction pre with
  | nil => intro idx j _; simp [process_entries_dir_none]
  | cons e pre ih =>
    intro idx j h
    cases e with
    | file p' ext =>
      cases ext with
      | none =>
        rw [process_entries_file_none] at h
        simp only [List.cons_append, process_entries_file_none]
        exact ih _ _ h
      | some content =>
        rw [process_entries_file_some] at h
        simp only [List.cons_append, process_entries_file_some]
        exact ih _ _ h
    | dir d' listing =>
      cases listing with
      | none => rw [process_entries_dir_none] at h; exact absurd h (by simp)
      | some sub =>
        rw [process_entries_dir_some] at h
        rw [List.cons_append, process_entries_dir_some]
        cases hres : process_entries sub idx with
        | error e => rfl
        | ok idx2 =>
          rw [hres] at h
          exact ih idx2 j h

/-! ## Additional comparison lemmas for the ranked sort -/

theorem F.pcmp_isSome_symm (x y : F) : (F.pcmp x y).isSome = (F.pcmp y x).isSome := by
  cases hx : (F.pcmp x y).isSome <;> cases hy : (F.pcmp y x).isSome <;> try rfl
  · obtain ⟨h1, h2⟩ := (F.pcmp_isSome_iff y x).mp hy
    have := (F.pcmp_isSome_iff x y).mpr ⟨h2, h1⟩
    rw [hx] at this
    exact absurd this (by simp)
  · obtain ⟨h1, h2⟩ := (F.pcmp_isSome_iff x y).mp hx
    have := (F.pcmp_isSome_iff y x).mpr ⟨h2, h1⟩
    rw [hy] at this
    exact absurd this (by simp)

/-! ## Claim theorems -/

/-- C1: the two backends are not observably equivalent, because
`SqliteModel::search_query` is `todo!()` and panics unconditionally: on a
freshly opened (empty) database and the empty query, the sqlite backend
panics (modelled `none`) while the in-memory backend returns `Ok` of the
empty result list. -/
theorem sqlite_search_query_unimplemented :
    SqliteModel.search_query SqliteModel.emptyDb [] = none
    ∧ InMemoryModel.search_query (fun _ => 0) InMemoryModel.empty [] = some [] := by
  constructor
  · rfl
  · decide

/-- C2 counterexample: calling `add_document` twice with the same path
`"p.xml"` and content `"a"` leaves `document_frequency["A"] = 2` although only
one stored document contains the term `"A"`: replacement does not decrement
the old document's terms, so the claimed invariant fails. -/
theorem add_document_replace_breaks_df_cex :
    getD (add_documents InMemoryModel.empty
      [("p.xml", ['a']), ("p.xml", ['a'])]).df "A" 0 = 2
    ∧ docs_containing (add_documents InMemoryModel.empty
      [("p.xml", ['a']), ("p.xml", ['a'])]).docs "A" = 1 := by
  decide

/-- C2 (amended): for every term `t` and every sequence of `add_document`
calls whose paths are pairwise distinct, `document_frequency[t]` equals the
number of stored documents whose term-frequency map contains `t` with a
positive count.  Maintenance is increment-only: `add_document` never
decrements `document_frequency` for the terms of a replaced document, so a
call that replaces an existing path over-counts (see the counterexample). -/
theorem document_frequency_invariant (inputs : List (DocPath × List Char))
    (hnodup : (inputs.map Prod.fst).Nodup) (t : String) :
    getD (add_documents InMemoryModel.empty inputs).df t 0 =
      docs_containing (add_documents InMemoryModel.empty inputs).docs t := by
  refine add_documents_invariant inputs InMemoryModel.empty hnodup ?_ ?_ t
  · intro q _
    simp [InMemoryModel.empty, keysA_nil]
  · intro t'
    rfl

theorem document_frequency_invariant_witness :
    (([("a.xml", ['x']), ("b.xml", ['y'])] : List (DocPath × List Char)).map
      Prod.fst).Nodup
    ∧ getD (add_documents InMemoryModel.empty
        [("a.xml", ['x']), ("b.xml", ['y'])]).df "X" 0 =
      docs_containing (add_documents InMemoryModel.empty
        [("a.xml", ['x']), ("b.xml", ['y'])]).docs "X" :=
  ⟨by decide, document_frequency_invariant [("a.xml", ['x']), ("b.xml", ['y'])] (by decide) "X"⟩

/-- C3 counterexample: adding the unchanged document (path `"q.xml"`, content
`"b"`) a second time changes the corpus statistics: `document_frequency["B"]`
grows from 1 to 2, so indexing the same unchanged file twice is not
idempotent. -/
theorem add_document_twice_changes_df_cex :
    getD ((InMemoryModel.empty.add_document "q.xml" ['b']).add_document
      "q.xml" ['b']).df "B" 0 = 2
    ∧ getD (InMemoryModel.empty.add_document "q.xml" ['b']).df "B" 0 = 1 := by
  decide

/-- C3 (amended): adding an identical document at the same path a second time
leaves the documents map unchanged, but increments `document_frequency` by
one for each distinct term of the document; the corpus statistics as a whole
are therefore unchanged only when the document has no terms. -/
theorem add_document_twice (m : InMemoryModel) (p : DocPath) (c : List Char) :
    ((m.add_document p c).add_document p c).docs = (m.add_document p c).docs
    ∧ ∀ t : String,
        getD ((m.add_document p c).add_document p c).df t 0 =
          getD (m.add_document p c).df t 0 +
            (if 0 < getD (term_freq_of c) t 0 then 1 else 0) := by
  constructor
  · show insertA (insertA m.docs p _) p _ = insertA m.docs p _
    exact insertA_insertA _ _ _ _
  · intro t
    rw [add_document_df_getD, count_keysA_term_freq_of]

/-- C4: `compute_tf` has no guard for `term_count = 0`: on a document with an
empty term-frequency map and `count = 0` it computes `0.0 / 0.0`, which is
NaN, not the `0` the claim specifies. -/
theorem compute_tf_zero_count_nan :
    compute_tf "A" ⟨[], 0⟩ = F.nan ∧ F.nan ≠ F.fin 0 := by
  decide

/-- C5 counterexample: a corpus holding a zero-term-count document
(`"empty.xml"`, empty content) next to an ordinary document, queried with one
token, makes the empty document's rank NaN; the sort comparator's
`partial_cmp(..).unwrap()` then panics (modelled `none` = no `Ok` result). -/
theorem search_query_zero_count_panic_cex :
    InMemoryModel.search_query (fun _ => 0)
      (add_documents InMemoryModel.empty [("empty.xml", []), ("a.xml", ['a'])])
      ['a'] = none := by
  decide

/-- C5 (amended): on every corpus reachable by `add_document` calls in which
every stored document has a positive term count, `search_query` never panics
and returns `Ok`: every rank is a finite non-NaN value, so every sort
comparison succeeds.  A reachable corpus containing a zero-term-count
document can panic instead (see the counterexample). -/
theorem search_query_no_panic (inputs : List (DocPath × List Char)) (lg : ℚ → ℚ)
    (q : List Char)
    (hpos : ∀ pd ∈ (add_documents InMemoryModel.empty inputs).docs, 0 < pd.2.count) :
    ∃ out, InMemoryModel.search_query lg
      (add_documents InMemoryModel.empty inputs) q = some out := by
  have hdf : ∀ kv ∈ (add_documents InMemoryModel.empty inputs).df, 0 < kv.2 :=
    add_documents_df_pos inputs InMemoryModel.empty (by simp [InMemoryModel.empty])
  have hfin := ranks_all_fin lg (add_documents InMemoryModel.empty inputs) q hdf hpos
  have hcomp := allComparable_of_all_fin _ hfin
  have hsome : (InMemoryModel.search_query lg
      (add_documents InMemoryModel.empty inputs) q).isSome = true := by
    unfold InMemoryModel.search_query
    rw [sort_by_checked_of_allComparable _ _ hcomp]
    rfl
  exact Option.isSome_iff_exists.mp hsome

theorem search_query_no_panic_witness :
    (∀ pd ∈ (add_documents InMemoryModel.empty [("doc.xml", ['a'])]).docs,
      0 < pd.2.count)
    ∧ ∃ out, InMemoryModel.search_query (fun _ => 0)
        (add_documents InMemoryModel.empty [("doc.xml", ['a'])]) ['a'] = some out :=
  ⟨by decide, search_query_no_panic [("doc.xml", ['a'])] (fun _ => 0) ['a'] (by decide)⟩

/-- C6 counterexample: `é` is a (non-ASCII) lowercase alphabetic character;
the tokenizer consumes it in an alphabetic-led run and emits it unchanged,
because `to_ascii_uppercase` folds only ASCII letters — so the emitted
alphabetic term `"é"` is not fully uppercase, contradicting the claim's
"including non-ASCII alphabetic characters". -/
theorem tokens_nonascii_lowercase_cex :
    tokens ['é'] = [String.mk ['é']]
    ∧ isAlphabeticM 'é' = true
    ∧ isUppercaseM 'é' = false
    ∧ to_ascii_uppercase 'é' = 'é' := by
  decide

/-- C6 (amended): every term the tokenizer emits has all of its ASCII
alphabetic characters uppercased (no emitted term contains an ASCII lowercase
letter); non-ASCII alphabetic characters are emitted unchanged, since the
folding is `to_ascii_uppercase`; digit-led runs are emitted verbatim with no
case folding. -/
theorem tokens_ascii_case_folding :
    (∀ s : List Char, ∀ t ∈ tokens s, ∀ c ∈ t.data, isAsciiLower c = false)
    ∧ ∀ (c : Char) (rest : List Char), isNumericM c = true →
        tokens (c :: rest) =
          String.mk ((c :: rest).takeWhile isNumericM) ::
            tokens ((c :: rest).dropWhile isNumericM) := by
  constructor
  · intro s t ht c hc
    exact tokens_no_lower_aux s.length s (le_refl _) t ht c hc
  · intro c rest hnum
    rw [tokens_unfold]
    have hw : isWhitespaceM c = false := isNumericM_not_ws c hnum
    have htl : trim_left (c :: rest) = c :: rest :=
      List.dropWhile_cons_of_neg (by simp [hw])
    have hnt : next_token (c :: rest) =
        some (String.mk ((c :: rest).takeWhile isNumericM),
          (c :: rest).dropWhile isNumericM) := by
      rw [next_token, htl]
      simp [hnum]
    rw [hnt]

theorem tokens_ascii_case_folding_witness :
    isAsciiLower 'A' = false
    ∧ tokens ['1'] =
        String.mk (['1'].takeWhile isNumericM) ::
          tokens (['1'].dropWhile isNumericM) :=
  ⟨tokens_ascii_case_folding.1 ['a'] (String.mk ['A']) (by decide) 'A' (by decide),
   tokens_ascii_case_folding.2 '1' [] (by decide)⟩

/-- C7 counterexample: with two stored zero-term-count documents and a
one-token query, both ranks are NaN, the sort comparator panics, and
`search_query` returns nothing at all — so it does not return one pair per
stored document for every corpus and query. -/
theorem search_query_panic_two_empty_docs_cex :
    InMemoryModel.search_query (fun _ => 0)
      (add_documents InMemoryModel.empty [("p1.xml", []), ("p2.xml", [])])
      ['b'] = none := by
  decide

/-- C7 (amended): whenever `search_query` returns a result (its rank
comparisons all succeed), the result has exactly one `(path, score)` pair per
stored document — it is a permutation of the per-document rank list, its
paths are a permutation of the stored paths — and it is sorted by descending
score; when a rank comparison fails (a NaN rank alongside a second document)
the call panics instead of returning (see the counterexample). -/
theorem search_query_complete_sorted (lg : ℚ → ℚ) (m : InMemoryModel)
    (q : List Char) (out : List (DocPath × F))
    (h : m.search_query lg q = some out) :
    out.length = m.docs.length
    ∧ out.Perm (m.ranks lg q)
    ∧ (out.map Prod.fst).Perm (m.docs.map Prod.fst)
    ∧ out.Pairwise (fun a b => F.leb b.2 a.2 = true) := by
  unfold InMemoryModel.search_query at h
  obtain ⟨s, hs, hrev⟩ := Option.map_eq_some'.mp h
  obtain ⟨hcomp, hsort⟩ := sort_by_checked_some hs
  have hsperm : s.Perm (m.ranks lg q) := by
    rw [hsort]
    exact insertion_sort_perm _ _
  have hperm : out.Perm (m.ranks lg q) := by
    rw [← hrev]
    exact s.reverse_perm.trans hsperm
  have hlen : out.length = m.docs.length := by
    rw [hperm.length_eq]
    unfold InMemoryModel.ranks
    exact List.length_map _ _
  have hpaths : (out.map Prod.fst).Perm (m.docs.map Prod.fst) := by
    have := hperm.map Prod.fst
    refine this.trans ?_
    unfold InMemoryModel.ranks
    rw [List.map_map]
    exact List.Perm.refl _
  refine ⟨hlen, hperm, hpaths, ?_⟩
  have hpair : s.Pairwise (fun a b : DocPath × F => F.leb a.2 b.2 = true) := by
    rw [hsort]
    refine pairwise_insertion_sort _ _ ?_ ?_
    · intro a b
      exact F.leb_total a.2 b.2
    · intro a b c ha hb hc hab hbc
      have hmem := allComparable_mem (fun x y : DocPath × F => F.pcmp x.2 y.2)
        (fun x y => F.pcmp_isSome_symm x.2 y.2) (m.ranks lg q) hcomp
      rcases hmem a ha b hb with rfl | hab'
      · exact hbc
      · rcases hmem b hb c hc with rfl | hbc'
        · exact hab
        · rcases hmem a ha c hc with rfl | hac'
          · exact F.leb_refl a.2
          · obtain ⟨ha2, hb2⟩ := (F.pcmp_isSome_iff a.2 b.2).mp hab'
            obtain ⟨_, hc2⟩ := (F.pcmp_isSome_iff b.2 c.2).mp hbc'
            exact F.leb_trans_nonnan ha2 hb2 hc2 hab hbc
  rw [← hrev]
  exact (List.pairwise_reverse).mpr hpair

theorem search_query_complete_sorted_witness :
    ([("w.xml", F.fin 0)] : List (DocPath × F)).length =
      (add_documents InMemoryModel.empty [("w.xml", ['a', 'b'])]).docs.length
    ∧ ([("w.xml", F.fin 0)] : List (DocPath × F)).Perm
        ((add_documents InMemoryModel.empty [("w.xml", ['a', 'b'])]).ranks
          (fun _ => 0) [])
    ∧ (([("w.xml", F.fin 0)] : List (DocPath × F)).map Prod.fst).Perm
        ((add_documents InMemoryModel.empty [("w.xml", ['a', 'b'])]).docs.map
          Prod.fst)
    ∧ ([("w.xml", F.fin 0)] : List (DocPath × F)).Pairwise
        (fun a b => F.leb b.2 a.2 = true) :=
  search_query_complete_sorted (fun _ => 0)
    (add_documents InMemoryModel.empty [("w.xml", ['a', 'b'])]) []
    [("w.xml", F.fin 0)] (by decide)

/-- C8 counterexample: `compute_idf` applies no `max(..., 1)` clamp: on a
document-frequency map that stores an explicit `0` for the term, the code
computes `log10(1 / 0) = log10(+inf) = +inf`, while the claim's formula with
the clamp gives `log10(1 / 1) = 0`. -/
theorem compute_idf_no_max_clamp_cex :
    compute_idf (fun _ => 0) "X" 1 [("X", 0)] = F.inf
    ∧ idf_spec (fun _ => 0) "X" 1 [("X", 0)] = F.fin 0 := by
  constructor
  · decide
  · unfold idf_spec F.ofNat
    rw [show getD ([("X", 0)] : DocFreq) "X" 1 = 0 from rfl]
    rw [show max 0 1 = 1 from rfl]
    rw [F.div_fin_fin _ _ (by norm_num)]
    rw [show ((1 : Nat) : ℚ) / ((1 : Nat) : ℚ) = 1 by norm_num]
    rw [F.log10_fin_pos _ _ (by norm_num)]

/-- C8 (amended): on every document-frequency map whose stored counts are
positive — which every reachable map is — `compute_idf` agrees with the
claim's formula `log10(N / max(df.get(t, 1), 1))`; the code itself applies no
clamp, so a map storing an explicit `0` diverges (see the counterexample).
A term absent from `df` is treated as occurring in exactly one document, and
for `N ≥ 1` its score is a finite value, never undefined or infinite. -/
theorem compute_idf_matches_spec (lg : ℚ → ℚ) (t : String) (n : Nat) (df : DocFreq)
    (hpos : ∀ kv ∈ df, 0 < kv.2) :
    compute_idf lg t n df = idf_spec lg t n df
    ∧ (1 ≤ n → getA df t = none →
        ∃ q, compute_idf lg t n df = F.fin q) := by
  have hd : 0 < getD df t 1 := getD_df_pos df hpos t
  constructor
  · unfold compute_idf idf_spec
    rw [Nat.max_eq_left hd]
  · intro hn _
    exact ⟨_, compute_idf_fin lg t n df hn hpos⟩

theorem compute_idf_matches_spec_witness :
    (∀ kv ∈ ([("A", 2)] : DocFreq), 0 < kv.2)
    ∧ (compute_idf (fun _ => 0) "B" 3 [("A", 2)] = idf_spec (fun _ => 0) "B" 3 [("A", 2)]
       ∧ (1 ≤ 3 → getA ([("A", 2)] : DocFreq) "B" = none →
           ∃ q, compute_idf (fun _ => 0) "B" 3 [("A", 2)] = F.fin q)) :=
  ⟨by decide, compute_idf_matches_spec (fun _ => 0) "B" 3 [("A", 2)] (by decide)⟩

/-- C9: the persisted snapshot round-trips exactly: serializing a
`TermFreqIndex` to JSON as `save_tf_index` does and deserializing it as the
`search`/`serve` subcommands do yields the identical structure, and the
reloaded index answers every query with results identical to the original's. -/
theorem snapshot_roundtrip (idx : TermFreqIndex) :
    tf_index_from_json (tf_index_to_json idx) = some idx
    ∧ ∀ (lg : ℚ → ℚ) (q : List Char),
        (tf_index_from_json (tf_index_to_json idx)).map
          (fun m2 => search_query_main lg m2 q) =
          some (search_query_main lg idx q) := by
  have h : tf_index_from_json (tf_index_to_json idx) = some idx := by
    unfold tf_index_to_json tf_index_from_json
    exact tf_index_fields_roundtrip idx
  refine ⟨h, fun lg q => ?_⟩
  rw [h, Option.map_some']

/-- C10: during a traversal, an extraction failure for one file is skipped —
the traversal result is exactly as if the file were absent (no corpus entry
for its path, siblings still processed) — while a directory that cannot be
opened or listed aborts with an error, both at the root (`fs::read_dir`
fails) and when reached mid-listing after successful entries. -/
theorem folder_traversal_error_handling :
    (∀ (pre : List Entry) (p : DocPath) (post : List Entry) (idx : TermFreqIndex),
      process_entries (pre ++ Entry.file p none :: post) idx =
        process_entries (pre ++ post) idx)
    ∧ (∀ idx : TermFreqIndex, tf_index_of_folder none idx = Except.error ())
    ∧ ∀ (pre : List Entry) (d : DocPath) (post : List Entry)
        (idx j : TermFreqIndex), process_entries pre idx = Except.ok j →
        process_entries (pre ++ Entry.dir d none :: post) idx = Except.error () := by
  refine ⟨?_, ?_, ?_⟩
  · intro pre p post idx
    exact process_entries_skip pre p post idx
  · intro idx
    rfl
  · intro pre d post idx j h
    exact process_entries_dir_abort pre d post idx j h

theorem folder_traversal_error_handling_witness :
    process_entries ([] ++ Entry.file "f.xml" none :: []) [] =
      process_entries ([] ++ []) []
    ∧ tf_index_of_folder none [] = Except.error ()
    ∧ process_entries ([] ++ Entry.dir "d" none :: []) [] = Except.error () :=
  ⟨folder_traversal_error_handling.1 [] "f.xml" [] [],
   folder_traversal_error_handling.2.1 [],
   folder_traversal_error_handling.2.2 [] "d" [] [] []
     (by simp [process_entries])⟩
